import Mathlib

/-!
Verification of the github2gerrit reconciliation core.

Commit messages, comment bodies and other multi-line texts are modelled as
lists of lines (`List String`); a line never contains a newline character.
Python dictionaries are modelled as association lists whose insert operation
replaces the value of an existing key in place (preserving insertion order)
and appends new keys at the end, matching CPython dict semantics.
-/

namespace G2G

/-- Python `\s` / `str.split()` whitespace over ASCII. -/
def isPySpace (c : Char) : Bool :=
  c = ' ' || c = '\t' || c = '\n' || c = '\r' || c = '\x0b' || c = '\x0c'

/-- Lowercase every character of a string (ASCII, as `Char.toLower`). -/
def lowerStr (s : String) : String :=
  ⟨s.data.map Char.toLower⟩

/-- `str.strip()`: remove leading and trailing whitespace from a char list. -/
def stripChars (l : List Char) : List Char :=
  ((l.dropWhile isPySpace).reverse.dropWhile isPySpace).reverse

/-- `str.strip()` on strings. -/
def stripStr (s : String) : String :=
  ⟨stripChars s.data⟩

/-- `p` is a prefix of `s` (Python `str.startswith`). -/
def strStartsWith (s p : String) : Bool :=
  p.data.isPrefixOf s.data

/-- Drop the first `p.length` characters of `s` (used after a prefix check). -/
def strDropPrefix (s p : String) : String :=
  ⟨s.data.drop p.data.length⟩

/-- Association-list lookup with exact string keys (Python `dict.get`). -/
def lookupStr {β : Type} : List (String × β) → String → Option β
  | [], _ => none
  | (k', v) :: t, k => if k' = k then some v else lookupStr t k

/-- Association-list insert with CPython dict semantics: an existing key keeps
its position and gets the new value; a new key is appended at the end. -/
def insertStr {β : Type} : List (String × β) → String → β → List (String × β)
  | [], k, v => [(k, v)]
  | (k', v') :: t, k, v =>
      if k' = k then (k', v) :: t else (k', v') :: insertStr t k v

/-! ## Trailer codec

Modelled from the spec: the module `github2gerrit/trailers.py` is not under
`src/` (only its callers, demo script and tests are).  Spec section 4.1
describes `parse_trailers` as scanning from the end of the message backward:
the trailer block is the maximal run of `Key: value` shaped lines extending
to the end of the message, preceded by a blank line or constituting the
entire message; non-trailer trailing content aborts detection (empty block).
A trailer key matches `[A-Za-z][A-Za-z0-9-]*`; the value is the text after
the colon, whitespace-stripped.  Continuation lines are not modelled.
Keys are matched exactly (Python dict key semantics). -/

/-- A valid trailer key: first char alphabetic, rest alphanumeric or dash. -/
def trailerKeyOk : List Char → Bool
  | [] => false
  | c :: rest => c.isAlpha && rest.all (fun d => d.isAlphanum || d = '-')

/-- Split a line into trailer key and stripped value, if it is
`Key: value` shaped. -/
def splitTrailerLine (line : String) : Option (String × String) :=
  let key := line.data.takeWhile (fun c => c ≠ ':')
  match line.data.drop key.length with
  | [] => none
  | _ :: value =>
      if trailerKeyOk key then some (⟨key⟩, ⟨stripChars value⟩) else none

/-- Whether a line is `Key: value` shaped. -/
def isTrailerLine (line : String) : Bool :=
  (splitTrailerLine line).isSome

/-- Modelled from the spec: `parse_trailers(message)`.  Returns the key/value
pairs of the trailer block in file order, or `[]` when no block is found. -/
def parse_trailers (lines : List String) : List (String × String) :=
  let rev := lines.reverse
  let blockRev := rev.takeWhile isTrailerLine
  let rest := rev.drop blockRev.length
  if blockRev.isEmpty then []
  else
    match rest with
    | [] => blockRev.reverse.filterMap splitTrailerLine
    | pre :: _ =>
        if stripChars pre.data = [] then blockRev.reverse.filterMap splitTrailerLine
        else []

/-- All values recorded under `key` (exact match), in file order. -/
def trailerValues (block : List (String × String)) (key : String) : List String :=
  (block.filter (fun p => p.1 = key)).map (fun p => p.2)

/-- The `GitHub-PR` trailer key (`GITHUB_PR_TRAILER` in the source). -/
def GITHUB_PR_TRAILER : String := "GitHub-PR"

/-- Modelled from the spec: `extract_github_metadata(message)` filters the
trailer block to GitHub-prefixed keys; when a key repeats, the last
occurrence wins. -/
def extract_github_metadata (lines : List String) : List (String × String) :=
  (parse_trailers lines).foldl
    (fun m p => if strStartsWith p.1 "GitHub-" then insertStr m p.1 p.2 else m) []

/-- Pure core of `extract_pr_url_from_commit` (src/src/github2gerrit/
gerrit_pr_closer.py): parse the trailers of the commit message and return the
last `GitHub-PR` value, if any.  The `git show` call that fetches the message
is replaced by passing the message directly. -/
def extract_pr_url_from_commit_message (lines : List String) : Option String :=
  (trailerValues (parse_trailers lines) GITHUB_PR_TRAILER).getLast?

/-! ## Subject similarity

Modelled from the spec (section 4.2): `compute_jaccard_similarity` over token
sets.  Exact rational arithmetic stands in for Python floats; the quotients
involved (small integer divisions) are exact in both representations. -/

/-- Modelled from the spec: `|A ∩ B| / |A ∪ B|`, defined as `0` when both
sets are empty. -/
def compute_jaccard_similarity (a b : Finset String) : ℚ :=
  if a = ∅ ∧ b = ∅ then 0
  else ((a ∩ b).card : ℚ) / ((a ∪ b).card : ℚ)

/-! ## File-set signer

Modelled from the spec (section 4.3): normalize each path (lowercase,
canonical `/` separator, strip one trailing separator), collapse duplicates,
sort lexicographically, join with a fixed delimiter and hash.  The spec
leaves the digest algorithm open ("SHA-256 suggested ... implementers must
choose"); a concrete 64-bit polynomial digest rendered in hex stands in for
it — every claim about signatures depends only on the canonicalized input of
the digest, not on the digest function chosen. -/

/-- Lowercase a char and convert a backslash separator to `/`. -/
def normalizePathChar (c : Char) : Char :=
  if c = '\\' then '/' else Char.toLower c

/-- Normalize one path: lowercase, `\` → `/`, strip one trailing separator. -/
def normalize_path (p : String) : String :=
  let replaced := p.data.map normalizePathChar
  if replaced.getLast? = some '/' then ⟨replaced.dropLast⟩ else ⟨replaced⟩

/-- Lexicographic comparison of char lists by code point. -/
def lexLe : List Char → List Char → Bool
  | [], _ => true
  | _ :: _, [] => false
  | a :: as, b :: bs =>
      if a.toNat < b.toNat then true
      else if a = b then lexLe as bs else false

/-- Lexicographic order on strings used to sort normalized paths. -/
def strLe (a b : String) : Bool := lexLe a.data b.data

/-- 64-bit polynomial rolling digest of a char list. -/
def polyDigest (l : List Char) : Nat :=
  l.foldl (fun h c => (h * 1000003 + c.toNat) % 18446744073709551616) 5381

/-- Render a digest as a hex string. -/
def hexDigest (n : Nat) : String := ⟨Nat.toDigits 16 n⟩

/-- The sorting relation on strings as a proposition. -/
def strLeR (a b : String) : Prop := strLe a b = true

instance : DecidableRel strLeR := fun a b => instDecidableEqBool (strLe a b) true

/-- Modelled from the spec: `compute_file_signature(paths)`. -/
def compute_file_signature (paths : List String) : String :=
  let canonical := ((paths.map normalize_path).dedup).insertionSort strLeR
  hexDigest (polyDigest (String.intercalate "\x00" canonical).data)

/-! ## Mapping-comment codec

Modelled from the spec: the module `github2gerrit/mapping_comment.py` is not
under `src/` (only its callers and the demo script are).  Spec section 4.4
fixes the markers, the field order (`PR:`, `Mode:`, `Topic:`, `Change-Ids:`
with one indented id per line, `GitHub-Hash:`) and the update/parse
behaviour; the concrete block layout is taken from the demo script's
embedded example.  Texts are lists of lines; both markers stand alone on
their own line. -/

/-- Start marker of a v1 mapping-comment block. -/
def START_MARKER : String := "<!-- github2gerrit:change-id-map v1 -->"

/-- End marker of a mapping-comment block. -/
def END_MARKER : String := "<!-- end github2gerrit:change-id-map -->"

/-- The canonical cross-system identity record for one PR. -/
structure ChangeIdMapping where
  pr_url : String
  mode : String
  topic : String
  change_ids : List String
  github_hash : String
deriving DecidableEq

/-- The field lines of a serialized mapping block, in the fixed order fixed
by the format contract, each change id indented on its own line. -/
def mappingFieldLines (m : ChangeIdMapping) : List String :=
  ["PR: " ++ m.pr_url,
   "Mode: " ++ m.mode,
   "Topic: " ++ m.topic,
   "Change-Ids:"]
  ++ m.change_ids.map (fun i => "  " ++ i)
  ++ ["GitHub-Hash: " ++ m.github_hash]

/-- Modelled from the spec: serialize a mapping between the markers, one
field per line in the fixed order. -/
def serialize_mapping_comment (m : ChangeIdMapping) : List String :=
  START_MARKER :: (mappingFieldLines m ++ [END_MARKER])

/-- Drop lines up to and including the first end marker. -/
def dropThroughEnd : List String → List String
  | [] => []
  | l :: ls => if l = END_MARKER then ls else dropThroughEnd ls

/-- Locate the last start marker that is followed by an end marker; return
the lines before the start marker and the lines after the first end marker
following it. -/
def splitLastPair : List String → Option (List String × List String)
  | [] => none
  | l :: ls =>
      match splitLastPair ls with
      | some (p, q) => some (l :: p, q)
      | none =>
          if l = START_MARKER ∧ END_MARKER ∈ ls then some ([], dropThroughEnd ls)
          else none

/-- Modelled from the spec: replace the recognized marker block in place, or
append a new block separated by a blank line. -/
def update_mapping_comment_body (lines : List String) (m : ChangeIdMapping) :
    List String :=
  match splitLastPair lines with
  | some (p, q) => p ++ serialize_mapping_comment m ++ q
  | none => lines ++ [""] ++ serialize_mapping_comment m

/-- The lines strictly between the first start marker and the first end
marker after it, when both exist. -/
def extractBlock (lines : List String) : Option (List String) :=
  match lines.dropWhile (fun l => l ≠ START_MARKER) with
  | [] => none
  | _ :: rest =>
      let inner := rest.takeWhile (fun l => l ≠ END_MARKER)
      if inner.length = rest.length then none else some inner

/-- Parse the field lines of a block into a mapping. -/
def parseFields (fields : List String) : Option ChangeIdMapping :=
  match fields with
  | pr :: mo :: tp :: hdr :: rest =>
      if strStartsWith pr "PR: " = true ∧ strStartsWith mo "Mode: " = true ∧
         strStartsWith tp "Topic: " = true ∧ hdr = "Change-Ids:" then
        let ids := rest.takeWhile (fun l => strStartsWith l "  ")
        match rest.drop ids.length with
        | [gh] =>
            if strStartsWith gh "GitHub-Hash: " = true then
              some ⟨strDropPrefix pr "PR: ", strDropPrefix mo "Mode: ",
                    strDropPrefix tp "Topic: ",
                    ids.map (fun i => strDropPrefix i "  "),
                    strDropPrefix gh "GitHub-Hash: "⟩
            else none
        | _ => none
      else none
  | _ => none

/-- Modelled from the spec: scan the chronologically ordered bodies, locate
the last body containing a marker pair and parse its block; a malformed
block yields `none` (no fallback to earlier bodies by default). -/
def parse_mapping_comments (bodies : List (List String)) : Option ChangeIdMapping :=
  match bodies.reverse.find? (fun b => (extractBlock b).isSome) with
  | none => none
  | some b => (extractBlock b).bind parseFields

/-- Modelled from the spec: exact equality of PR URL and GitHub hash. -/
def validate_mapping_consistency (m : ChangeIdMapping)
    (expected_pr_url expected_github_hash : String) : Bool :=
  (m.pr_url == expected_pr_url) && (m.github_hash == expected_github_hash)

/-! ## Reconciliation policy

Modelled from the spec: the reconciliation engine described in section 4.5
is not under `src/` (the demo script only simulates its step 1).  Candidates
carry their Gerrit change id, current commit message, and the subject-token
set and file signature produced by the Subject Normalizer / File-Set Signer;
`updated` is the candidate's last-update stamp used for tie-breaking. -/

/-- An existing Gerrit change considered by the policy. -/
structure GerritCandidate where
  change_id : String
  commit_message : List String
  subject_tokens : Finset String
  file_signature : String
  updated : Nat
deriving DecidableEq

/-- The decision produced by one reconciliation run. -/
inductive ReconcileDecision where
  | updateTarget (change_ids : List String)
  | likelyDuplicate (change_id : String)
  | createNew
deriving DecidableEq

/-- Step 1 test: the candidate's `GitHub-Hash` and `GitHub-PR` trailers both
equal the freshly computed expected hash and PR URL. -/
def trailerMatch (expected_pr expected_hash : String) (c : GerritCandidate) : Bool :=
  (lookupStr (extract_github_metadata c.commit_message) "GitHub-Hash"
      == some expected_hash)
  && (lookupStr (extract_github_metadata c.commit_message) "GitHub-PR"
      == some expected_pr)

/-- Step 3 of the policy: candidates passing the similarity threshold with an
exactly matching file signature; the highest similarity wins, ties broken by
the most recently updated candidate. -/
def reconcileFuzzy (candidates : List GerritCandidate) (pr_tokens : Finset String)
    (pr_signature : String) (threshold : ℚ) : ReconcileDecision :=
  let scored := candidates.map
    (fun c => (c, compute_jaccard_similarity c.subject_tokens pr_tokens))
  match scored.filter
      (fun p => threshold < p.2 ∧ p.1.file_signature = pr_signature) with
  | [] => .createNew
  | p :: rest =>
      .likelyDuplicate
        (rest.foldl
          (fun best q =>
            if best.2 < q.2 ∨ (best.2 = q.2 ∧ best.1.updated < q.1.updated)
            then q else best) p).1.change_id

/-- Modelled from the spec: the reconciliation state machine.  Step 1 trailer
exact match, step 2 mapping-comment match, step 3 fuzzy candidate match,
otherwise create new. -/
def reconcile (expected_pr expected_hash : String)
    (candidates : List GerritCandidate) (comments : List (List String))
    (pr_tokens : Finset String) (pr_signature : String) (threshold : ℚ) :
    ReconcileDecision :=
  match candidates.find? (trailerMatch expected_pr expected_hash) with
  | some c => .updateTarget [c.change_id]
  | none =>
      match parse_mapping_comments comments with
      | some mp =>
          if validate_mapping_consistency mp expected_pr expected_hash then
            .updateTarget mp.change_ids
          else
            reconcileFuzzy candidates pr_tokens pr_signature threshold
      | none => reconcileFuzzy candidates pr_tokens pr_signature threshold

/-! ## Gerrit change status (src/src/github2gerrit/gerrit_pr_closer.py)

`check_gerrit_change_status` is embedded with the Gerrit REST interaction
made explicit: `fetch host change_number` models
`build_client_for_host(host).get(f"/changes/{change_number}")`, either
failing (any raised exception, `GerritRestError` or otherwise) or returning
a response whose optional `status` field models `change_data.get("status")`.
The URL grammar of `GERRIT_CHANGE_URL_PATTERN` lives in the `constants`
module, which is not under `src/`; it is reconstructed here from the
docstring examples of `extract_change_number_from_url`. -/

/-- Outcome of the Gerrit REST query. -/
inductive GerritRestResult where
  | restError
  | response (statusField : Option String)

/-- Whether `pat` occurs as a contiguous segment of a char list. -/
def containsSeg (pat : List Char) : List Char → Bool
  | [] => pat.isEmpty
  | c :: cs => pat.isPrefixOf (c :: cs) || containsSeg pat cs

/-- The digits after the last `/+/` of a path, scanning for the last
occurrence. -/
def afterLastPlus : List Char → Option (List Char)
  | [] => none
  | c1 :: rest =>
      match afterLastPlus rest with
      | some r => some r
      | none =>
          if c1 = '/' ∧ rest.take 2 = ['+', '/'] then some (rest.drop 2)
          else none

/-- Extract Gerrit host and change number from a Gerrit change URL
(`https://host[/prefix]/c/project/+/12345`), or `none` when the URL does not
match. -/
def extract_change_number_from_url (url : String) : Option (String × String) :=
  let rest :=
    if strStartsWith url "https://" then some (strDropPrefix url "https://")
    else if strStartsWith url "http://" then some (strDropPrefix url "http://")
    else none
  match rest with
  | none => none
  | some r =>
      let host := r.data.takeWhile (fun c => c ≠ '/')
      let path := r.data.drop host.length
      if host.isEmpty then none
      else if containsSeg ['/', 'c', '/'] path then
        match afterLastPlus path with
        | some ds =>
            if ds.isEmpty = false ∧ ds.all (fun c => c.isDigit) then
              some (⟨host⟩, ⟨ds⟩)
            else none
        | none => none
      else none

/-- The statuses the source validates against. -/
def allowedStatuses : List String := ["MERGED", "ABANDONED", "NEW", "UNKNOWN"]

/-- The validation block of `check_gerrit_change_status`: a status outside
the allowed set is treated as `"UNKNOWN"` (with a warning). -/
def sanitizeStatus (status : String) : String :=
  if status ∈ allowedStatuses then status else "UNKNOWN"

/-- `check_gerrit_change_status` from gerrit_pr_closer.py: parse the URL,
query the change, default a missing `status` field to `"UNKNOWN"`, and map
every failure or out-of-range status to `"UNKNOWN"`. -/
def check_gerrit_change_status (fetch : String → String → GerritRestResult)
    (gerrit_change_url : String) : String :=
  match extract_change_number_from_url gerrit_change_url with
  | none => "UNKNOWN"
  | some (host, change_number) =>
      match fetch host change_number with
      | .restError => "UNKNOWN"
      | .response statusField => sanitizeStatus (statusField.getD "UNKNOWN")

/-! ## PR command system (src/src/github2gerrit/pr_commands.py)

The `_MENTION_RE` regular expression
`(?:^|\s)@github2gerrit\s+(.+)` (IGNORECASE, MULTILINE) is embedded as an
explicit left-to-right, non-overlapping scanner over the characters of a
comment body: a match needs the mention at a line start or after one
whitespace character, then at least one whitespace character, and captures
greedily up to the end of the line (backtracking into the whitespace run
when the line ends there, exactly as the backtracking engine does). -/

/-- Definition of a recognised command (registry entry). -/
structure CommandDefinition where
  name : String
  aliases : List String
  description : String := ""
  hidden : Bool := false
deriving DecidableEq

/-- All phrases matching a command: canonical name plus aliases. -/
def CommandDefinition.all_phrases (d : CommandDefinition) : List String :=
  d.name :: d.aliases

/-- Result of matching a single command in a PR comment. -/
structure CommandMatch where
  command_name : String
  raw_text : String
  comment_index : Nat
deriving DecidableEq

/-- Aggregated result from scanning all PR comments; `found_matches` embeds
the `matches` field of the source dataclass (that name is reserved in
Lean). -/
structure CommandParseResult where
  found_matches : List CommandMatch
  unrecognised : List String
deriving DecidableEq

/-- The built-in `create missing change` command. -/
def CMD_CREATE_MISSING : CommandDefinition :=
  { name := "create missing change",
    aliases := ["create-missing", "create missing"],
    description := "Create a Gerrit change when an UPDATE operation cannot find an existing one." }

/-- The command registry as populated at import time. -/
def COMMAND_REGISTRY : List CommandDefinition := [CMD_CREATE_MISSING]

/-- Accumulator-style `str.split()` on whitespace, dropping empty pieces. -/
def splitWsGo : List Char → List Char → List (List Char)
  | [], cur => if cur.isEmpty then [] else [cur.reverse]
  | c :: cs, cur =>
      if isPySpace c then
        if cur.isEmpty then splitWsGo cs [] else cur.reverse :: splitWsGo cs []
      else splitWsGo cs (c :: cur)

/-- `str.split()` on whitespace. -/
def splitWs (l : List Char) : List (List Char) := splitWsGo l []

/-- `_normalise_phrase`: collapse whitespace and lowercase. -/
def normalise_phrase (s : String) : String :=
  ⟨List.intercalate [' '] (splitWs (s.data.map Char.toLower))⟩

/-- `_build_phrase_index`: map every normalised phrase to its canonical
command name; later registrations overwrite earlier ones. -/
def build_phrase_index (reg : List CommandDefinition) : List (String × String) :=
  reg.foldl
    (fun idx defn =>
      defn.all_phrases.foldl
        (fun idx phrase =>
          insertStr idx (normalise_phrase phrase) (stripStr (lowerStr defn.name)))
        idx)
    []

/-- `_match_command`: exact lookup first, then the longest registered phrase
that is a prefix of the normalised text. -/
def match_command (normalised : String) (phrase_index : List (String × String)) :
    Option String :=
  match lookupStr phrase_index normalised with
  | some c => some c
  | none =>
      (phrase_index.foldl
        (fun best pc =>
          if strStartsWith normalised pc.1 = true ∧ best.2 < pc.1.data.length
          then (some pc.2, pc.1.data.length)
          else best)
        ((none : Option String), 0)).1

/-- The characters of the mention prefix `@github2gerrit`. -/
def mentionChars : List Char := "@github2gerrit".data

/-- Match the mention prefix case-insensitively, returning the remainder. -/
def stripMention (l : List Char) : Option (List Char) :=
  if (l.take mentionChars.length).map Char.toLower = mentionChars then
    some (l.drop mentionChars.length)
  else none

/-- Backtracking case of `\s+(.+)` when the line ends inside the whitespace
run: the largest split point `k ≥ 1` whose character can start the capture
(any non-newline character). -/
def backCapture (w : List Char) : Option (List Char × List Char) :=
  match (List.range w.length).reverse.find?
      (fun k => decide (1 ≤ k) && decide (w.getD k '\n' ≠ '\n')) with
  | some k =>
      let cap := (w.drop k).takeWhile (fun c => c ≠ '\n')
      some (cap, w.drop (k + cap.length))
  | none => none

/-- Match `\s+(.+)` after the mention: at least one whitespace character,
then a greedy capture of non-newline characters. -/
def afterMention (r : List Char) : Option (List Char × List Char) :=
  let w := r.takeWhile isPySpace
  let rest := r.drop w.length
  if w.isEmpty then none
  else
    match rest with
    | [] => backCapture w
    | _ :: _ =>
        let cap := rest.takeWhile (fun c => c ≠ '\n')
        some (cap, rest.drop cap.length)

/-- Try a match of `_MENTION_RE` at the current position: the `^`
alternative first, then the `\s` alternative consuming one whitespace
character. -/
def matchMentionAt (atLineStart : Bool) (l : List Char) :
    Option (List Char × List Char) :=
  match (if atLineStart then (stripMention l).bind afterMention else none) with
  | some res => some res
  | none =>
      match l with
      | [] => none
      | c :: cs => if isPySpace c then (stripMention cs).bind afterMention else none

/-- Left-to-right non-overlapping scan collecting all capture groups. -/
def scanMentions : Nat → Bool → List Char → List (List Char)
  | 0, _, _ => []
  | _ + 1, _, [] => []
  | fuel + 1, atLineStart, c :: cs =>
      match matchMentionAt atLineStart (c :: cs) with
      | some (cap, rest) => cap :: scanMentions fuel false rest
      | none => scanMentions fuel (c = '\n') cs

/-- All raw command strings following a mention in one comment body. -/
def findMentionDirectives (body : String) : List String :=
  (scanMentions body.data.length true body.data).map (fun cap => (⟨cap⟩ : String))

/-- State of the `parse_commands` fold: the `seen` dict keyed by canonical
name, and the unrecognised raw strings. -/
abbrev CmdState := List (String × CommandMatch) × List String

/-- Process one capture group: strip, normalise, match, then record the
match (overwriting any earlier one for the same canonical name) or append to
the unrecognised list. -/
def commandStep (phrase_index : List (String × String)) (i : Nat)
    (st : CmdState) (cap : String) : CmdState :=
  let raw := stripStr cap
  match match_command (normalise_phrase raw) phrase_index with
  | some name => (insertStr st.1 name ⟨name, raw, i⟩, st.2)
  | none => (st.1, st.2 ++ [raw])

/-- Process one comment body (empty bodies are skipped). -/
def processBody (phrase_index : List (String × String)) (st : CmdState)
    (ib : Nat × String) : CmdState :=
  if ib.2.data.isEmpty then st
  else (findMentionDirectives ib.2).foldl (commandStep phrase_index ib.1) st

/-- `parse_commands`: scan the bodies oldest-first; the latest occurrence of
each canonical command wins. -/
def parse_commands (reg : List CommandDefinition) (comment_bodies : List String) :
    CommandParseResult :=
  let phrase_index := build_phrase_index reg
  let st := comment_bodies.enum.foldl (processBody phrase_index) ([], [])
  ⟨st.1.map (fun p => p.2), st.2⟩

/-- The recognised command event produced by one capture group, if any. -/
def eventOf (phrase_index : List (String × String)) (i : Nat) (cap : String) :
    Option (String × CommandMatch) :=
  match match_command (normalise_phrase (stripStr cap)) phrase_index with
  | some name => some (name, (⟨name, stripStr cap, i⟩ : CommandMatch))
  | none => none

/-- The chronological list of recognised command events `(canonical name,
match)` over all bodies, before deduplication. -/
def commandEvents (reg : List CommandDefinition) (comment_bodies : List String) :
    List (String × CommandMatch) :=
  let phrase_index := build_phrase_index reg
  comment_bodies.enum.flatMap
    (fun ib =>
      if ib.2.data.isEmpty then []
      else (findMentionDirectives ib.2).filterMap (eventOf phrase_index ib.1))

/-! ## Concrete fixtures used by witnesses -/

/-- An existing Gerrit change whose commit message carries trailers for
PR 123 and hash `abc12345` (the demo script's rerun scenario). -/
def fixtureCandidate : GerritCandidate :=
  ⟨"I1234567890abcdef1234567890abcdef12345678",
   ["Fix network parser bug", "",
    "This resolves crashes when handling malformed packets.", "",
    "Change-Id: I1234567890abcdef1234567890abcdef12345678",
    "Signed-off-by: Developer <dev@example.com>",
    "GitHub-PR: https://github.com/owner/repo/pull/123",
    "GitHub-Hash: abc12345"],
   {"fix", "network", "parser", "bug"}, "sigA", 7⟩

/-- A mapping comment for the same PR and hash, standing in for the policy's
step-2 input during the step-1 precedence witness. -/
def fixtureMappingComment : List String :=
  serialize_mapping_comment
    ⟨"https://github.com/owner/repo/pull/123", "squash", "GH-owner-repo-123",
     ["I9999999999999999999999999999999999999999"], "abc12345"⟩

/-- The commit message of the source test
`test_returns_last_trailer_when_multiple`: two `GitHub-PR` trailers. -/
def fixtureMsgMulti : List String :=
  ["Commit with multiple trailers", "",
   "Change-Id: I1234567890abcdef1234567890abcdef12345678",
   "GitHub-PR: https://github.com/owner/repo/pull/111",
   "GitHub-PR: https://github.com/owner/repo/pull/222",
   "Signed-off-by: Developer <dev@example.com>"]

/-! ## Association-list lemmas -/

theorem lookupStr_insertStr_self {β : Type} (l : List (String × β)) (k : String) (v : β) :
    lookupStr (insertStr l k v) k = some v := by
  induction l with
  | nil => simp [insertStr, lookupStr]
  | cons p t ih =>
      obtain ⟨k', v'⟩ := p
      by_cases h : k' = k
      · simp [insertStr, h, lookupStr]
      · simp [insertStr, h, lookupStr, ih]

theorem lookupStr_insertStr_ne {β : Type} (l : List (String × β)) (k' k : String)
    (v : β) (h : k' ≠ k) :
    lookupStr (insertStr l k' v) k = lookupStr l k := by
  induction l with
  | nil => simp [insertStr, lookupStr, h]
  | cons p t ih =>
      obtain ⟨k₀, v₀⟩ := p
      by_cases h0 : k₀ = k'
      · subst h0
        simp [insertStr, lookupStr, h]
      · simp [insertStr, h0, lookupStr, ih]

/-! ## C5: Jaccard similarity bounds -/

/-- C5: for all token sets `A` and `B`, the Jaccard similarity lies in
`[0, 1]`; it is exactly `0` when both sets are empty (total, no division by
zero), and `1` on any non-empty set compared with itself. -/
theorem compute_jaccard_similarity_bounds (a b : Finset String) :
    0 ≤ compute_jaccard_similarity a b ∧ compute_jaccard_similarity a b ≤ 1 ∧
    compute_jaccard_similarity ∅ ∅ = 0 ∧
    (a.Nonempty → compute_jaccard_similarity a a = 1) := by
  refine ⟨?_, ?_, by simp [compute_jaccard_similarity], ?_⟩
  · unfold compute_jaccard_similarity
    split
    · exact le_refl 0
    · positivity
  · unfold compute_jaccard_similarity
    split
    · norm_num
    · rename_i h
      have hub : (a ∪ b).Nonempty := by
        rcases Finset.eq_empty_or_nonempty a with ha | ha
        · rcases Finset.eq_empty_or_nonempty b with hb | hb
          · exact absurd ⟨ha, hb⟩ h
          · exact hb.mono Finset.subset_union_right
        · exact ha.mono Finset.subset_union_left
      have hpos : (0 : ℚ) < ((a ∪ b).card : ℚ) := by
        exact_mod_cast Finset.card_pos.mpr hub
      rw [div_le_one hpos]
      exact_mod_cast Finset.card_le_card
        (Finset.inter_subset_left.trans Finset.subset_union_left)
  · intro ha
    unfold compute_jaccard_similarity
    rw [if_neg fun hc => (Finset.nonempty_iff_ne_empty.mp ha) hc.1]
    rw [Finset.inter_self, Finset.union_self]
    exact div_self (by exact_mod_cast Nat.pos_iff_ne_zero.mp (Finset.card_pos.mpr ha))

/-- Witness for C5 at concrete inputs. -/
theorem compute_jaccard_similarity_bounds_witness :
    (({"fix"} : Finset String)).Nonempty ∧
    compute_jaccard_similarity {"fix"} {"fix"} = 1 :=
  ⟨by decide, (compute_jaccard_similarity_bounds {"fix"} {"fix"}).2.2.2 (by decide)⟩

/-! ## C9: Gerrit change status is total -/

/-- C9: `check_gerrit_change_status` always returns one of `MERGED`,
`ABANDONED`, `NEW`, `UNKNOWN`; an unparseable URL, a REST failure, and an
out-of-range status string each yield `UNKNOWN` instead of an error. -/
theorem check_gerrit_change_status_spec
    (fetch : String → String → GerritRestResult) (url : String) :
    check_gerrit_change_status fetch url ∈ allowedStatuses ∧
    (extract_change_number_from_url url = none →
      check_gerrit_change_status fetch url = "UNKNOWN") ∧
    (∀ host num, extract_change_number_from_url url = some (host, num) →
      fetch host num = .restError →
      check_gerrit_change_status fetch url = "UNKNOWN") ∧
    (∀ host num s, extract_change_number_from_url url = some (host, num) →
      fetch host num = .response (some s) → s ∉ allowedStatuses →
      check_gerrit_change_status fetch url = "UNKNOWN") := by
  have hsan : ∀ s, sanitizeStatus s ∈ allowedStatuses := by
    intro s
    unfold sanitizeStatus
    split
    · assumption
    · simp [allowedStatuses]
  refine ⟨?_, ?_, ?_, ?_⟩
  · cases hx : extract_change_number_from_url url with
    | none => simp [check_gerrit_change_status, hx, allowedStatuses]
    | some p =>
        obtain ⟨host, num⟩ := p
        cases hf : fetch host num with
        | restError =>
            simp [check_gerrit_change_status, hx, hf, allowedStatuses]
        | response sf =>
            simp only [check_gerrit_change_status, hx, hf]
            exact hsan _
  · intro hx
    simp [check_gerrit_change_status, hx]
  · intro host num hx hf
    simp [check_gerrit_change_status, hx, hf]
  · intro host num s hx hf hs
    simp only [check_gerrit_change_status, hx, hf, Option.getD_some]
    exact if_neg hs

/-- Witness for C9: a concrete out-of-range status and a concrete
unparseable URL both map to `UNKNOWN`. -/
theorem check_gerrit_change_status_spec_witness :
    check_gerrit_change_status (fun _ _ => .response (some "ODD"))
      "https://gerrit.example.org/c/project/+/12345" = "UNKNOWN" ∧
    check_gerrit_change_status (fun _ _ => .restError) "not-a-url" = "UNKNOWN" :=
  ⟨(check_gerrit_change_status_spec (fun _ _ => .response (some "ODD"))
        "https://gerrit.example.org/c/project/+/12345").2.2.2
      "gerrit.example.org" "12345" "ODD" (by decide) rfl (by decide),
   (check_gerrit_change_status_spec (fun _ _ => .restError) "not-a-url").2.1
      (by decide)⟩

/-! ## C1: trailer exact match outranks every other policy step -/

/-- C1: whenever some existing candidate's commit message carries
`GitHub-Hash` and `GitHub-PR` trailers both exactly equal to the run's
expected hash and PR URL, the reconciliation policy answers
`UPDATE_TARGET` from step 1, whatever the comment history (step 2) and the
fuzzy-matching inputs (step 3) are. -/
theorem reconcile_step1_precedence (expected_pr expected_hash : String)
    (candidates : List GerritCandidate) (comments : List (List String))
    (pr_tokens : Finset String) (pr_signature : String) (threshold : ℚ)
    (c : GerritCandidate) (hc : c ∈ candidates)
    (hm : trailerMatch expected_pr expected_hash c = true) :
    ∃ c', c' ∈ candidates ∧ trailerMatch expected_pr expected_hash c' = true ∧
      reconcile expected_pr expected_hash candidates comments pr_tokens
          pr_signature threshold = .updateTarget [c'.change_id] := by
  have hsome : (candidates.find? (trailerMatch expected_pr expected_hash)).isSome := by
    rw [List.find?_isSome]
    exact ⟨c, hc, hm⟩
  obtain ⟨c', hfind⟩ := Option.isSome_iff_exists.mp hsome
  refine ⟨c', List.mem_of_find?_eq_some hfind, List.find?_some hfind, ?_⟩
  unfold reconcile
  rw [hfind]

/-- Witness for C1: a rerun with matching trailers updates the existing
change even though a consistent mapping comment and a perfect fuzzy
candidate are also present. -/
theorem reconcile_step1_precedence_witness :
    ∃ c', c' ∈ [fixtureCandidate] ∧
      trailerMatch "https://github.com/owner/repo/pull/123" "abc12345" c' = true ∧
      reconcile "https://github.com/owner/repo/pull/123" "abc12345"
          [fixtureCandidate] [fixtureMappingComment]
          (fixtureCandidate.subject_tokens) "sigA" 0
        = .updateTarget [c'.change_id] :=
  reconcile_step1_precedence "https://github.com/owner/repo/pull/123" "abc12345"
    [fixtureCandidate] [fixtureMappingComment] fixtureCandidate.subject_tokens
    "sigA" 0 fixtureCandidate (by decide) (by decide)

/-! ## C4: file signatures depend only on the normalized path set -/

theorem char_eq_of_toNat_eq {a b : Char} (h : a.toNat = b.toNat) : a = b := by
  apply Char.eq_of_val_eq
  apply UInt32.eq_of_toBitVec_eq
  exact BitVec.eq_of_toNat_eq h

theorem lexLe_cons (x y : Char) (xs ys : List Char) :
    lexLe (x :: xs) (y :: ys) = true ↔
      x.toNat < y.toNat ∨ (x = y ∧ lexLe xs ys = true) := by
  simp [lexLe]

theorem lexLe_total (a : List Char) : ∀ b, lexLe a b = true ∨ lexLe b a = true := by
  induction a with
  | nil => intro b; left; rfl
  | cons x xs ih =>
      intro b
      cases b with
      | nil => right; rfl
      | cons y ys =>
          by_cases hlt : x.toNat < y.toNat
          · left; rw [lexLe_cons]; exact Or.inl hlt
          · by_cases heq : x = y
            · rcases ih ys with h | h
              · left; rw [lexLe_cons]; exact Or.inr ⟨heq, h⟩
              · right; rw [lexLe_cons]; exact Or.inr ⟨heq.symm, h⟩
            · right
              rw [lexLe_cons]
              left
              rcases Nat.lt_or_ge y.toNat x.toNat with h | h
              · exact h
              · exact absurd (char_eq_of_toNat_eq
                  (Nat.le_antisymm h (Nat.le_of_not_lt hlt))) heq

theorem lexLe_trans (a : List Char) :
    ∀ b c, lexLe a b = true → lexLe b c = true → lexLe a c = true := by
  induction a with
  | nil => intro b c _ _; rfl
  | cons x xs ih =>
      intro b c h1 h2
      cases b with
      | nil => exact absurd h1 (by simp [lexLe])
      | cons y ys =>
          cases c with
          | nil => exact absurd h2 (by simp [lexLe])
          | cons z zs =>
              rw [lexLe_cons] at h1 h2 ⊢
              rcases h1 with h1 | ⟨h1e, h1t⟩
              · rcases h2 with h2 | ⟨h2e, _⟩
                · exact Or.inl (Nat.lt_trans h1 h2)
                · exact Or.inl (h2e ▸ h1)
              · rcases h2 with h2 | ⟨h2e, h2t⟩
                · exact Or.inl (h1e ▸ h2)
                · exact Or.inr ⟨h1e.trans h2e, ih ys zs h1t h2t⟩

theorem lexLe_antisymm (a : List Char) :
    ∀ b, lexLe a b = true → lexLe b a = true → a = b := by
  induction a with
  | nil =>
      intro b _ hba
      cases b with
      | nil => rfl
      | cons y ys => exact absurd hba (by simp [lexLe])
  | cons x xs ih =>
      intro b hab hba
      cases b with
      | nil => exact absurd hab (by simp [lexLe])
      | cons y ys =>
          rw [lexLe_cons] at hab hba
          rcases hab with h1 | ⟨h1e, h1t⟩
          · rcases hba with h2 | ⟨h2e, _⟩
            · omega
            · exact absurd (congrArg Char.toNat h2e) (by omega)
          · rcases hba with h2 | ⟨_, h2t⟩
            · exact absurd (congrArg Char.toNat h1e) (by omega)
            · rw [h1e, ih ys h1t h2t]

theorem strLeR_isTotal : IsTotal String strLeR :=
  ⟨fun a b => by
    unfold strLeR strLe
    exact lexLe_total a.data b.data⟩

theorem strLeR_isTrans : IsTrans String strLeR :=
  ⟨fun a b c => by
    unfold strLeR strLe
    exact lexLe_trans a.data b.data c.data⟩

theorem strLeR_isAntisymm : IsAntisymm String strLeR :=
  ⟨fun a b h1 h2 => String.ext (lexLe_antisymm a.data b.data h1 h2)⟩

theorem insertionSort_dedup_eq_of_toFinset_eq (l1 l2 : List String)
    (h : l1.toFinset = l2.toFinset) :
    l1.dedup.insertionSort strLeR = l2.dedup.insertionSort strLeR := by
  have hperm : l1.dedup.Perm l2.dedup := by
    have hv := congrArg Finset.val h
    rw [List.toFinset_val, List.toFinset_val] at hv
    exact Multiset.coe_eq_coe.mp hv
  have hps : (l1.dedup.insertionSort strLeR).Perm (l2.dedup.insertionSort strLeR) :=
    (List.perm_insertionSort strLeR l1.dedup).trans
      (hperm.trans (List.perm_insertionSort strLeR l2.dedup).symm)
  exact @List.eq_of_perm_of_sorted _ strLeR strLeR_isAntisymm _ _ hps
    (@List.sorted_insertionSort _ strLeR _ strLeR_isTotal strLeR_isTrans l1.dedup)
    (@List.sorted_insertionSort _ strLeR _ strLeR_isTotal strLeR_isTrans l2.dedup)

/-- C4: two path lists whose elements normalize (lowercase, `/` separators,
one trailing separator stripped) to the same set produce the same file
signature, regardless of order, duplicates, case or separator style. -/
theorem compute_file_signature_set_invariant (paths1 paths2 : List String)
    (h : (paths1.map normalize_path).toFinset = (paths2.map normalize_path).toFinset) :
    compute_file_signature paths1 = compute_file_signature paths2 := by
  unfold compute_file_signature
  rw [insertionSort_dedup_eq_of_toFinset_eq _ _ h]

/-- Witness for C4: order, duplicates, case and separator style all
normalize away. -/
theorem compute_file_signature_set_invariant_witness :
    compute_file_signature ["a/B.TXT", "src/util.py"]
      = compute_file_signature ["SRC/UTIL.PY", "A/b.txt/", "a\\b.txt"] :=
  compute_file_signature_set_invariant ["a/B.TXT", "src/util.py"]
    ["SRC/UTIL.PY", "A/b.txt/", "a\\b.txt"] (by decide)

/-! ## String-prefix and marker lemmas -/

theorem data_head?_append (p x : String) (a : Char) (hp : p.data.head? = some a) :
    (p ++ x).data.head? = some a := by
  rw [String.data_append]
  cases hpd : p.data with
  | nil => rw [hpd] at hp; exact absurd hp (by simp)
  | cons c cs =>
      rw [hpd] at hp
      simp only [List.head?_cons, Option.some.injEq] at hp
      simp [hp]

theorem append_ne_of_head (a b : Char) (p x t : String)
    (hp : p.data.head? = some a) (ht : t.data.head? = some b) (hab : a ≠ b) :
    p ++ x ≠ t := by
  intro he
  have hd : t.data.head? = some a := by
    rw [← he]
    exact data_head?_append p x a hp
  rw [ht] at hd
  exact hab (Option.some.inj hd).symm

theorem strStartsWith_append_self (p x : String) :
    strStartsWith (p ++ x) p = true := by
  unfold strStartsWith
  rw [String.data_append, List.isPrefixOf_iff_prefix]
  exact List.prefix_append _ _

theorem strStartsWith_eq_false_of_head (s p : String) (a b : Char)
    (hs : s.data.head? = some a) (hp : p.data.head? = some b) (hab : a ≠ b) :
    strStartsWith s p = false := by
  unfold strStartsWith
  cases hsd : s.data with
  | nil => rw [hsd] at hs; exact absurd hs (by simp)
  | cons c cs =>
      cases hpd : p.data with
      | nil => rw [hpd] at hp; exact absurd hp (by simp)
      | cons d ds =>
          rw [hsd] at hs
          rw [hpd] at hp
          simp only [List.head?_cons, Option.some.injEq] at hs hp
          subst hs
          subst hp
          simp [List.isPrefixOf]
          intro hda
          exact absurd hda.symm hab

theorem strDropPrefix_append (p x : String) : strDropPrefix (p ++ x) p = x := by
  unfold strDropPrefix
  rw [String.data_append, List.drop_left]

theorem mappingFieldLines_ne_markers (m : ChangeIdMapping) :
    ∀ l ∈ mappingFieldLines m, l ≠ START_MARKER ∧ l ≠ END_MARKER := by
  intro l hl
  have hstart : START_MARKER.data.head? = some '<' := rfl
  have hend : END_MARKER.data.head? = some '<' := rfl
  unfold mappingFieldLines at hl
  simp only [List.cons_append, List.nil_append, List.mem_cons, List.mem_append,
    List.mem_map, List.mem_singleton, List.not_mem_nil, or_false] at hl
  rcases hl with rfl | rfl | rfl | rfl | hl | rfl
  · exact ⟨append_ne_of_head 'P' '<' _ _ _ rfl hstart (by decide),
      append_ne_of_head 'P' '<' _ _ _ rfl hend (by decide)⟩
  · exact ⟨append_ne_of_head 'M' '<' _ _ _ rfl hstart (by decide),
      append_ne_of_head 'M' '<' _ _ _ rfl hend (by decide)⟩
  · exact ⟨append_ne_of_head 'T' '<' _ _ _ rfl hstart (by decide),
      append_ne_of_head 'T' '<' _ _ _ rfl hend (by decide)⟩
  · exact ⟨by decide, by decide⟩
  · obtain ⟨i, _, rfl⟩ := hl
    exact ⟨append_ne_of_head ' ' '<' _ _ _ rfl hstart (by decide),
      append_ne_of_head ' ' '<' _ _ _ rfl hend (by decide)⟩
  · exact ⟨append_ne_of_head 'G' '<' _ _ _ rfl hstart (by decide),
      append_ne_of_head 'G' '<' _ _ _ rfl hend (by decide)⟩

theorem takeWhile_append_of_all {α : Type} (p : α → Bool) (l1 l2 : List α)
    (h : ∀ x ∈ l1, p x = true) :
    (l1 ++ l2).takeWhile p = l1 ++ l2.takeWhile p := by
  induction l1 with
  | nil => simp
  | cons a t ih =>
      have ha : p a = true := h a (by simp)
      simp only [List.cons_append, List.takeWhile_cons, ha, if_true]
      rw [ih (fun x hx => h x (by simp [hx]))]

/-! ## C2: mapping-comment round-trip -/

theorem extractBlock_serialize (m : ChangeIdMapping) :
    extractBlock (serialize_mapping_comment m) = some (mappingFieldLines m) := by
  have hdw : (START_MARKER :: (mappingFieldLines m ++ [END_MARKER])).dropWhile
      (fun l => l ≠ START_MARKER)
      = START_MARKER :: (mappingFieldLines m ++ [END_MARKER]) := by
    rw [List.dropWhile_cons]
    simp
  have htw : (mappingFieldLines m ++ [END_MARKER]).takeWhile (fun l => l ≠ END_MARKER)
      = mappingFieldLines m := by
    rw [takeWhile_append_of_all _ _ _
      (fun x hx => by
        simpa using (mappingFieldLines_ne_markers m x hx).2)]
    simp [List.takeWhile_cons]
  simp only [extractBlock, serialize_mapping_comment, hdw, htw]
  rw [if_neg (by simp)]

theorem parseFields_mappingFieldLines (m : ChangeIdMapping) :
    parseFields (mappingFieldLines m) = some m := by
  have hids : ((m.change_ids.map (fun i => "  " ++ i)) ++ ["GitHub-Hash: " ++ m.github_hash]).takeWhile
      (fun l => strStartsWith l "  ")
      = m.change_ids.map (fun i => "  " ++ i) := by
    rw [takeWhile_append_of_all _ _ _
      (fun x hx => by
        obtain ⟨i, _, rfl⟩ := List.mem_map.mp hx
        exact strStartsWith_append_self "  " i)]
    rw [List.takeWhile_cons]
    rw [strStartsWith_eq_false_of_head ("GitHub-Hash: " ++ m.github_hash) "  " 'G' ' '
      (data_head?_append "GitHub-Hash: " m.github_hash 'G' rfl) rfl (by decide)]
    simp
  simp only [parseFields, mappingFieldLines, List.cons_append, List.nil_append,
    strStartsWith_append_self, hids, List.drop_left, List.map_map,
    strDropPrefix_append, and_self, and_true, true_and, if_true, ite_true]
  simp [Function.comp_def, strDropPrefix_append]

/-- C2: serializing any `ChangeIdMapping` and parsing the single resulting
body returns exactly the same mapping (PR URL, mode, topic, ordered change
ids and GitHub hash all preserved). -/
theorem mapping_comment_roundtrip (m : ChangeIdMapping) :
    parse_mapping_comments [serialize_mapping_comment m] = some m := by
  unfold parse_mapping_comments
  have hx := extractBlock_serialize m
  have hfind : [serialize_mapping_comment m].reverse.find?
      (fun b => (extractBlock b).isSome) = some (serialize_mapping_comment m) := by
    simp [List.find?, hx]
  simp [hfind, hx, parseFields_mappingFieldLines m]

/-! ## C3: mapping-comment update is idempotent -/

theorem splitLastPair_cons_none {l : String} {ls : List String}
    (h : splitLastPair (l :: ls) = none) : splitLastPair ls = none := by
  unfold splitLastPair at h
  cases hs : splitLastPair ls with
  | none => rfl
  | some pr =>
      obtain ⟨a, b⟩ := pr
      rw [hs] at h
      simp at h

theorem splitLastPair_append_some (p : List String) {rest : List String}
    {a b : List String} (h : splitLastPair rest = some (a, b)) :
    splitLastPair (p ++ rest) = some (p ++ a, b) := by
  induction p with
  | nil => simpa using h
  | cons x xs ih =>
      rw [List.cons_append]
      unfold splitLastPair
      rw [ih]
      exact rfl

theorem splitLastPair_none_of_all {l : List String} {q : List String}
    (hl : ∀ x ∈ l, x ≠ START_MARKER) (hq : splitLastPair q = none) :
    splitLastPair (l ++ q) = none := by
  induction l with
  | nil => simpa using hq
  | cons x xs ih =>
      have hx : x ≠ START_MARKER := hl x (by simp)
      have ih' := ih (fun y hy => hl y (by simp [hy]))
      rw [List.cons_append]
      unfold splitLastPair
      rw [ih']
      simp [hx]

theorem dropThroughEnd_append {l : List String} (hl : ∀ x ∈ l, x ≠ END_MARKER)
    (q : List String) : dropThroughEnd (l ++ (END_MARKER :: q)) = q := by
  induction l with
  | nil => simp [dropThroughEnd]
  | cons x xs ih =>
      rw [List.cons_append]
      unfold dropThroughEnd
      rw [if_neg (hl x (by simp))]
      exact ih (fun y hy => hl y (by simp [hy]))

theorem splitLastPair_serialize (m : ChangeIdMapping) (q : List String)
    (hq : splitLastPair q = none) :
    splitLastPair (serialize_mapping_comment m ++ q) = some ([], q) := by
  unfold serialize_mapping_comment
  rw [List.cons_append, List.append_assoc, List.singleton_append]
  have hendq : splitLastPair (END_MARKER :: q) = none := by
    unfold splitLastPair
    rw [hq]
    simp [show ¬ END_MARKER = START_MARKER by decide]
  have hinner : splitLastPair (mappingFieldLines m ++ END_MARKER :: q) = none :=
    splitLastPair_none_of_all
      (fun x hx => (mappingFieldLines_ne_markers m x hx).1) hendq
  unfold splitLastPair
  rw [hinner]
  rw [if_pos ⟨rfl, by simp⟩]
  rw [dropThroughEnd_append (fun x hx => (mappingFieldLines_ne_markers m x hx).2) q]

theorem splitLastPair_dropThroughEnd_none {ls : List String}
    (h : splitLastPair ls = none) :
    splitLastPair (dropThroughEnd ls) = none := by
  induction ls with
  | nil => simpa using h
  | cons x xs ih =>
      have hxs := splitLastPair_cons_none h
      unfold dropThroughEnd
      split
      · exact hxs
      · exact ih hxs

theorem splitLastPair_some_tail :
    ∀ {lines p q : List String}, splitLastPair lines = some (p, q) →
      splitLastPair q = none := by
  intro lines
  induction lines with
  | nil => intro p q h; simp [splitLastPair] at h
  | cons l ls ih =>
      intro p q h
      unfold splitLastPair at h
      cases hs : splitLastPair ls with
      | some pr =>
          obtain ⟨a, b⟩ := pr
          rw [hs] at h
          simp only [Option.some.injEq, Prod.mk.injEq] at h
          obtain ⟨-, h2⟩ := h
          subst h2
          exact ih hs
      | none =>
          rw [hs] at h
          by_cases hc : l = START_MARKER ∧ END_MARKER ∈ ls
          · rw [if_pos hc] at h
            simp only [Option.some.injEq, Prod.mk.injEq] at h
            obtain ⟨-, h2⟩ := h
            rw [← h2]
            exact splitLastPair_dropThroughEnd_none hs
          · rw [if_neg hc] at h
            exact absurd h (by simp)

/-- C3: `update_mapping_comment_body` is idempotent: a second application
with the same mapping is a fixed point, for every text and every mapping. -/
theorem update_mapping_comment_body_idempotent (lines : List String)
    (m : ChangeIdMapping) :
    update_mapping_comment_body (update_mapping_comment_body lines m) m
      = update_mapping_comment_body lines m := by
  cases h : splitLastPair lines with
  | some pq =>
      obtain ⟨p, q⟩ := pq
      have h1 : update_mapping_comment_body lines m
          = p ++ serialize_mapping_comment m ++ q := by
        unfold update_mapping_comment_body
        rw [h]
      have hq : splitLastPair q = none := splitLastPair_some_tail h
      have hs : splitLastPair (p ++ serialize_mapping_comment m ++ q)
          = some (p, q) := by
        rw [List.append_assoc]
        have := splitLastPair_append_some p (splitLastPair_serialize m q hq)
        simpa using this
      rw [h1]
      unfold update_mapping_comment_body
      rw [hs]
  | none =>
      have h1 : update_mapping_comment_body lines m
          = lines ++ [""] ++ serialize_mapping_comment m := by
        unfold update_mapping_comment_body
        rw [h]
      have hser : splitLastPair (serialize_mapping_comment m) = some ([], []) := by
        have := splitLastPair_serialize m [] rfl
        simpa using this
      have hs : splitLastPair (lines ++ [""] ++ serialize_mapping_comment m)
          = some (lines ++ [""], []) := by
        have := splitLastPair_append_some (lines ++ [""]) hser
        simpa using this
      rw [h1]
      unfold update_mapping_comment_body
      rw [hs]
      simp

/-! ## C6: GitHub metadata resolves repeated keys to the last value -/

theorem lookup_githubMetaFold (block : List (String × String)) :
    ∀ (acc : List (String × String)) (k : String),
      strStartsWith k "GitHub-" = true →
      lookupStr (block.foldl
        (fun m p => if strStartsWith p.1 "GitHub-" then insertStr m p.1 p.2 else m)
        acc) k
      = match ((block.filter (fun p => p.1 = k)).map (fun p => p.2)).getLast? with
        | some v => some v
        | none => lookupStr acc k := by
  induction block using List.reverseRecOn with
  | nil => intro acc k _; simp
  | append_singleton t p ih =>
      intro acc k hk
      obtain ⟨pk, pv⟩ := p
      rw [List.foldl_append, List.foldl_cons, List.foldl_nil,
        List.filter_append, List.map_append]
      by_cases hpk : pk = k
      · subst hpk
        rw [if_pos hk, lookupStr_insertStr_self]
        have hfil : List.filter (fun p => decide (p.1 = pk)) [(pk, pv)] = [(pk, pv)] := by
          simp
        rw [hfil]
        rw [show List.map (fun p : String × String => p.2) [(pk, pv)] = [pv] from rfl]
        rw [List.getLast?_concat]
      · have hfilter : List.filter (fun p => decide (p.1 = k)) [(pk, pv)] = [] := by
          simp [hpk]
        rw [hfilter]
        simp only [List.map_nil, List.append_nil]
        by_cases hpre : strStartsWith pk "GitHub-" = true
        · rw [if_pos hpre]
          rw [lookupStr_insertStr_ne _ pk k pv hpk]
          exact ih acc k hk
        · rw [if_neg hpre]
          exact ih acc k hk

/-- C6: when a GitHub-prefixed trailer key occurs repeatedly in the trailer
block, `extract_github_metadata` resolves it to the last occurrence, and
consequently the PR-url extraction of gerrit_pr_closer.py returns the last
`GitHub-PR` trailer value. -/
theorem extract_github_metadata_last_wins :
    (∀ (lines : List String) (k : String),
        strStartsWith k "GitHub-" = true →
        2 ≤ (trailerValues (parse_trailers lines) k).length →
        lookupStr (extract_github_metadata lines) k
          = (trailerValues (parse_trailers lines) k).getLast?)
    ∧ (∀ lines : List String,
        2 ≤ (trailerValues (parse_trailers lines) GITHUB_PR_TRAILER).length →
        extract_pr_url_from_commit_message lines
          = (trailerValues (parse_trailers lines) GITHUB_PR_TRAILER).getLast?) := by
  constructor
  · intro lines k hk _
    unfold extract_github_metadata trailerValues
    rw [lookup_githubMetaFold (parse_trailers lines) [] k hk]
    cases hlast : ((List.filter (fun p => decide (p.1 = k)) (parse_trailers lines)).map
        (fun p => p.2)).getLast? with
    | some v => rfl
    | none => rfl
  · intro lines _
    rfl

/-- Witness for C6: the test message with two `GitHub-PR` trailers resolves
to the later pull/222 URL. -/
theorem extract_github_metadata_last_wins_witness :
    lookupStr (extract_github_metadata fixtureMsgMulti) "GitHub-PR"
      = some "https://github.com/owner/repo/pull/222" ∧
    extract_pr_url_from_commit_message fixtureMsgMulti
      = some "https://github.com/owner/repo/pull/222" := by
  constructor
  · rw [extract_github_metadata_last_wins.1 fixtureMsgMulti "GitHub-PR"
      (by decide) (by decide)]
    decide
  · rw [extract_github_metadata_last_wins.2 fixtureMsgMulti (by decide)]
    decide

/-! ## C7: trailer-block detection -/

theorem takeWhile_all {α : Type} (p : α → Bool) (l : List α)
    (h : ∀ x ∈ l, p x = true) : l.takeWhile p = l := by
  have := takeWhile_append_of_all p l [] h
  simpa using this

theorem all_space_of_stripChars_nil {l : List Char} (h : stripChars l = []) :
    ∀ c ∈ l, isPySpace c = true := by
  unfold stripChars at h
  rw [List.reverse_eq_nil_iff] at h
  have h2 : ∀ c ∈ (l.dropWhile isPySpace).reverse, isPySpace c = true :=
    List.dropWhile_eq_nil_iff.mp h
  have h3 : ∀ c ∈ l.dropWhile isPySpace, isPySpace c = true :=
    fun c hc => h2 c (List.mem_reverse.mpr hc)
  intro c hc
  rw [← List.takeWhile_append_dropWhile (p := isPySpace) (l := l)] at hc
  rcases List.mem_append.mp hc with hc | hc
  · exact List.mem_takeWhile_imp hc
  · exact h3 c hc

theorem blank_not_trailer (b : String) (hb : stripChars b.data = []) :
    isTrailerLine b = false := by
  have hall := all_space_of_stripChars_nil hb
  have htake : b.data.takeWhile (fun c => c ≠ ':') = b.data :=
    takeWhile_all _ _ (fun c hc => by
      have := hall c hc
      simp only [decide_eq_true_eq]
      intro hcc
      subst hcc
      exact absurd this (by decide))
  unfold isTrailerLine splitTrailerLine
  simp only [htake, List.drop_length]
  rfl

/-- C7: `parse_trailers` recognizes a trailer block only as the maximal run
of `Key: value` shaped lines extending to the end of the message, preceded
by a blank line or constituting the entire message; any non-trailer,
non-blank content directly before the candidate run or at the end of the
message aborts detection with an empty block. -/
theorem parse_trailers_block_detection :
    (∀ bl : List String, (∀ l ∈ bl, isTrailerLine l = true) →
        parse_trailers bl = bl.filterMap splitTrailerLine)
    ∧ (∀ (body : List String) (b : String) (bl : List String),
        stripChars b.data = [] → (∀ l ∈ bl, isTrailerLine l = true) → bl ≠ [] →
        parse_trailers (body ++ b :: bl) = bl.filterMap splitTrailerLine)
    ∧ (∀ (msg : List String) (last : String),
        msg.getLast? = some last → isTrailerLine last = false →
        parse_trailers msg = [])
    ∧ (∀ (body : List String) (pre : String) (bl : List String),
        (∀ l ∈ bl, isTrailerLine l = true) → isTrailerLine pre = false →
        stripChars pre.data ≠ [] →
        parse_trailers (body ++ pre :: bl) = []) := by
  refine ⟨?_, ?_, ?_, ?_⟩
  · intro bl hbl
    cases bl with
    | nil => rfl
    | cons x xs =>
        have htw : ((x :: xs).reverse).takeWhile isTrailerLine = (x :: xs).reverse :=
          takeWhile_all _ _ (fun l hl => hbl l (List.mem_reverse.mp hl))
        simp only [parse_trailers, htw, List.drop_length, List.reverse_reverse]
        rw [if_neg (by simp)]
  · intro body b bl hb hbl hne
    have hrev : (body ++ b :: bl).reverse = bl.reverse ++ (b :: body.reverse) := by
      rw [List.reverse_append, List.reverse_cons, List.append_assoc,
        List.singleton_append]
    have htw : ((body ++ b :: bl).reverse).takeWhile isTrailerLine = bl.reverse := by
      rw [hrev, takeWhile_append_of_all _ _ _
        (fun l hl => hbl l (List.mem_reverse.mp hl))]
      rw [List.takeWhile_cons, blank_not_trailer b hb]
      simp
    have hdrop : ((body ++ b :: bl).reverse).drop (bl.reverse).length
        = b :: body.reverse := by
      rw [hrev, List.drop_left]
    simp only [parse_trailers, htw, hdrop, List.reverse_reverse]
    rw [if_neg (by simpa using hne), if_pos hb]
  · intro msg last hlast hnt
    cases hrev : msg.reverse with
    | nil =>
        have : msg = [] := by
          rw [← List.reverse_reverse msg, hrev]
          rfl
        subst this
        rfl
    | cons a t =>
        have ha : a = last := by
          have := List.head?_reverse msg
          rw [hrev, hlast] at this
          exact Option.some.inj this
        subst ha
        simp only [parse_trailers, hrev, List.takeWhile_cons, hnt]
        rfl
  · intro body pre bl hbl hpre hnb
    cases bl with
    | nil =>
        have htw0 : ((body ++ [pre]).reverse).takeWhile isTrailerLine = [] := by
          rw [List.reverse_append,
            show ([pre] : List String).reverse = [pre] from rfl,
            List.singleton_append, List.takeWhile_cons, hpre]
          simp
        simp only [parse_trailers, htw0]
        rfl
    | cons x xs =>
        have hrev : (body ++ pre :: (x :: xs)).reverse
            = (x :: xs).reverse ++ (pre :: body.reverse) := by
          rw [List.reverse_append, List.reverse_cons, List.append_assoc,
            List.singleton_append]
        have htw : ((body ++ pre :: (x :: xs)).reverse).takeWhile isTrailerLine
            = (x :: xs).reverse := by
          rw [hrev, takeWhile_append_of_all _ _ _
            (fun l hl => hbl l (List.mem_reverse.mp hl))]
          rw [List.takeWhile_cons, hpre]
          simp
        have hdrop : ((body ++ pre :: (x :: xs)).reverse).drop ((x :: xs).reverse).length
            = pre :: body.reverse := by
          rw [hrev, List.drop_left]
        simp only [parse_trailers, htw, hdrop]
        rw [if_neg (by simp), if_neg hnb]

/-- Witness for C7: the blank-separated block of the demo commit message is
parsed in full, and a message whose last line is prose yields an empty
block. -/
theorem parse_trailers_block_detection_witness :
    parse_trailers (["Fix critical bug", "This fixes things."] ++ "" ::
        ["Change-Id: I1234", "GitHub-PR: https://github.com/o/r/pull/1",
         "GitHub-Hash: abc"])
      = [("Change-Id", "I1234"),
         ("GitHub-PR", "https://github.com/o/r/pull/1"),
         ("GitHub-Hash", "abc")] ∧
    parse_trailers ["Regular commit", "", "Just a regular commit."] = [] := by
  constructor
  · rw [parse_trailers_block_detection.2.1 ["Fix critical bug", "This fixes things."]
      "" ["Change-Id: I1234", "GitHub-PR: https://github.com/o/r/pull/1",
          "GitHub-Hash: abc"] (by decide) (by decide) (by decide)]
    decide
  · exact parse_trailers_block_detection.2.2.1
      ["Regular commit", "", "Just a regular commit."] "Just a regular commit."
      (by decide) (by decide)

/-! ## C10: `_match_command` — exact match first, then longest prefix -/

theorem match_command_fold_spec (text : String) :
    ∀ (idx : List (String × String)) (best : Option String × Nat),
      (idx.foldl
          (fun best pc =>
            if strStartsWith text pc.1 = true ∧ best.2 < pc.1.data.length
            then (some pc.2, pc.1.data.length) else best) best
        = best
        ∧ ∀ pc ∈ idx, strStartsWith text pc.1 = true → pc.1.data.length ≤ best.2)
      ∨ (∃ pc ∈ idx, strStartsWith text pc.1 = true ∧
          idx.foldl
            (fun best pc =>
              if strStartsWith text pc.1 = true ∧ best.2 < pc.1.data.length
              then (some pc.2, pc.1.data.length) else best) best
            = (some pc.2, pc.1.data.length) ∧
          best.2 ≤ pc.1.data.length ∧
          ∀ pc' ∈ idx, strStartsWith text pc'.1 = true →
            pc'.1.data.length ≤ pc.1.data.length) := by
  intro idx
  induction idx with
  | nil => intro best; exact Or.inl ⟨rfl, by simp⟩
  | cons pc rest ih =>
      intro best
      rw [List.foldl_cons]
      by_cases hstep : strStartsWith text pc.1 = true ∧ best.2 < pc.1.data.length
      · rw [if_pos hstep]
        rcases ih (some pc.2, pc.1.data.length) with ⟨heq, hall⟩ | ⟨q, hqmem, hqpre, heq, hle, hmax⟩
        · refine Or.inr ⟨pc, by simp, hstep.1, heq, Nat.le_of_lt hstep.2, ?_⟩
          intro pc' hmem' hpre'
          rcases List.mem_cons.mp hmem' with rfl | hmem'
          · exact Nat.le_refl _
          · exact hall pc' hmem' hpre'
        · refine Or.inr ⟨q, by simp [hqmem], hqpre, heq, ?_, ?_⟩
          · exact Nat.le_trans (Nat.le_of_lt hstep.2) hle
          · intro pc' hmem' hpre'
            rcases List.mem_cons.mp hmem' with rfl | hmem'
            · exact hle
            · exact hmax pc' hmem' hpre'
      · rw [if_neg hstep]
        rcases ih best with ⟨heq, hall⟩ | ⟨q, hqmem, hqpre, heq, hle, hmax⟩
        · refine Or.inl ⟨heq, ?_⟩
          intro pc' hmem' hpre'
          rcases List.mem_cons.mp hmem' with rfl | hmem'
          · exact Nat.le_of_not_lt (fun hlt => hstep ⟨hpre', hlt⟩)
          · exact hall pc' hmem' hpre'
        · refine Or.inr ⟨q, by simp [hqmem], hqpre, heq, hle, ?_⟩
          intro pc' hmem' hpre'
          rcases List.mem_cons.mp hmem' with rfl | hmem'
          · exact Nat.le_trans (Nat.le_of_not_lt (fun hlt => hstep ⟨hpre', hlt⟩)) hle
          · exact hmax pc' hmem' hpre'

/-- C10: `_match_command` returns the exact table entry when the normalised
text is a registered phrase, and otherwise resolves to the canonical name of
a longest registered phrase that is a prefix of the text — so directives
with trailing punctuation or extra words still match. -/
theorem match_command_spec (phrase_index : List (String × String)) (text : String) :
    (∀ c, lookupStr phrase_index text = some c →
        match_command text phrase_index = some c)
    ∧ (lookupStr phrase_index text = none →
        ∀ p c, (p, c) ∈ phrase_index → strStartsWith text p = true →
          p.data.length ≠ 0 →
          ∃ p' c', (p', c') ∈ phrase_index ∧ strStartsWith text p' = true ∧
            match_command text phrase_index = some c' ∧
            ∀ p'' c'', (p'', c'') ∈ phrase_index →
              strStartsWith text p'' = true → p''.data.length ≤ p'.data.length) := by
  constructor
  · intro c hc
    unfold match_command
    rw [hc]
  · intro hnone p c hp hpre hlen
    unfold match_command
    rw [hnone]
    rcases match_command_fold_spec text phrase_index (none, 0) with
      ⟨heq, hall⟩ | ⟨pc, hmem, hpcpre, heq, -, hmax⟩
    · exact absurd (hall (p, c) hp hpre) (by simpa using hlen)
    · refine ⟨pc.1, pc.2, by simpa using hmem, hpcpre, ?_, ?_⟩
      · rw [heq]
      · intro p'' c'' hmem'' hpre''
        exact hmax (p'', c'') hmem'' hpre''

/-- Witness for C10: `create missing change please` has no exact entry but
resolves through prefix matching to the canonical command. -/
theorem match_command_spec_witness :
    ∃ p' c', (p', c') ∈ build_phrase_index COMMAND_REGISTRY ∧
      strStartsWith (normalise_phrase "create missing change please") p' = true ∧
      match_command (normalise_phrase "create missing change please")
          (build_phrase_index COMMAND_REGISTRY) = some c' ∧
      ∀ p'' c'', (p'', c'') ∈ build_phrase_index COMMAND_REGISTRY →
        strStartsWith (normalise_phrase "create missing change please") p'' = true →
        p''.data.length ≤ p'.data.length :=
  (match_command_spec (build_phrase_index COMMAND_REGISTRY)
      (normalise_phrase "create missing change please")).2
    (by decide) "create missing change" "create missing change" (by decide)
    (by decide) (by decide)

/-! ## Character-level lemmas for case-insensitivity -/

theorem char_eq_iff_toNat (a b : Char) : a = b ↔ a.toNat = b.toNat :=
  ⟨fun h => congrArg _ h, char_eq_of_toNat_eq⟩

theorem toLower_toNat_of_upper (c : Char) (h : 65 ≤ c.toNat ∧ c.toNat ≤ 90) :
    (Char.toLower c).toNat = c.toNat + 32 := by
  show (if c.toNat ≥ 65 ∧ c.toNat ≤ 90 then Char.ofNat (c.toNat + 32) else c).toNat
      = c.toNat + 32
  rw [if_pos ⟨h.1, h.2⟩]
  unfold Char.ofNat
  rw [dif_pos (by left; omega)]
  rfl

theorem toLower_eq_self (c : Char) (h : ¬(65 ≤ c.toNat ∧ c.toNat ≤ 90)) :
    Char.toLower c = c := by
  show (if c.toNat ≥ 65 ∧ c.toNat ≤ 90 then Char.ofNat (c.toNat + 32) else c) = c
  rw [if_neg (fun hc => h ⟨hc.1, hc.2⟩)]

theorem toLower_toLower (c : Char) :
    Char.toLower (Char.toLower c) = Char.toLower c := by
  by_cases h : 65 ≤ c.toNat ∧ c.toNat ≤ 90
  · apply toLower_eq_self
    rw [toLower_toNat_of_upper c h]
    omega
  · rw [toLower_eq_self c h]
    exact toLower_eq_self c h

theorem isPySpace_eq_false_of_toNat (d : Char) (h : 33 ≤ d.toNat) :
    isPySpace d = false := by
  unfold isPySpace
  have h32 : d ≠ ' ' := by intro he; subst he; exact absurd h (by decide)
  have h9 : d ≠ '\t' := by intro he; subst he; exact absurd h (by decide)
  have h10 : d ≠ '\n' := by intro he; subst he; exact absurd h (by decide)
  have h13 : d ≠ '\r' := by intro he; subst he; exact absurd h (by decide)
  have h11 : d ≠ '\x0b' := by intro he; subst he; exact absurd h (by decide)
  have h12 : d ≠ '\x0c' := by intro he; subst he; exact absurd h (by decide)
  simp [h32, h9, h10, h13, h11, h12]

theorem isPySpace_toLower (c : Char) : isPySpace (Char.toLower c) = isPySpace c := by
  by_cases h : 65 ≤ c.toNat ∧ c.toNat ≤ 90
  · rw [isPySpace_eq_false_of_toNat c (by omega),
      isPySpace_eq_false_of_toNat (Char.toLower c)
        (by rw [toLower_toNat_of_upper c h]; omega)]
  · rw [toLower_eq_self c h]

theorem toLower_eq_newline (c : Char) : Char.toLower c = '\n' ↔ c = '\n' := by
  by_cases h : 65 ≤ c.toNat ∧ c.toNat ≤ 90
  · constructor
    · intro he
      have hthis := (char_eq_iff_toNat _ _).mp he
      rw [toLower_toNat_of_upper c h,
        show ('\n').toNat = 10 from rfl] at hthis
      omega
    · intro he
      subst he
      exact absurd h (by decide)
  · rw [toLower_eq_self c h]

theorem map_toLower_idem (l : List Char) :
    (l.map Char.toLower).map Char.toLower = l.map Char.toLower := by
  rw [List.map_map]
  exact List.map_congr_left (fun c _ => toLower_toLower c)

theorem isPySpace_comp_toLower :
    (isPySpace ∘ Char.toLower) = isPySpace :=
  funext (fun c => isPySpace_toLower c)

theorem ne_newline_comp_toLower :
    ((fun c => decide (c ≠ '\n')) ∘ Char.toLower) = fun c => decide (c ≠ '\n') :=
  funext (fun c => decide_eq_decide.mpr (not_congr (toLower_eq_newline c)))

/-! ## Scanner commutes with lowercasing -/

theorem stripMention_map (l : List Char) :
    stripMention (l.map Char.toLower)
      = (stripMention l).map (List.map Char.toLower) := by
  unfold stripMention
  rw [← List.map_take, map_toLower_idem]
  by_cases h : (l.take mentionChars.length).map Char.toLower = mentionChars
  · rw [if_pos h, if_pos h, ← List.map_drop]
    rfl
  · rw [if_neg h, if_neg h]
    rfl

theorem backCapture_map (w : List Char) :
    backCapture (w.map Char.toLower)
      = (backCapture w).map
          (fun pr => (pr.1.map Char.toLower, pr.2.map Char.toLower)) := by
  unfold backCapture
  have hlen : (w.map Char.toLower).length = w.length := List.length_map w _
  rw [hlen]
  have hpred : (fun k => decide (1 ≤ k)
        && decide ((w.map Char.toLower).getD k '\n' ≠ '\n'))
      = fun k => decide (1 ≤ k) && decide (w.getD k '\n' ≠ '\n') := by
    funext k
    have hget : (w.map Char.toLower).getD k '\n' = Char.toLower (w.getD k '\n') := by
      have h0 := List.getD_map w '\n' (n := k) Char.toLower
      rw [show Char.toLower '\n' = '\n' from by decide] at h0
      exact h0
    rw [hget]
    rw [decide_eq_decide.mpr (not_congr (toLower_eq_newline _))]
  rw [hpred]
  cases hf : (List.range w.length).reverse.find?
      (fun k => decide (1 ≤ k) && decide (w.getD k '\n' ≠ '\n')) with
  | none => rfl
  | some k =>
      simp only [Option.map_some]
      have hdrop : (w.map Char.toLower).drop k = (w.drop k).map Char.toLower :=
        (List.map_drop _ _ _).symm
      rw [hdrop, List.takeWhile_map, ne_newline_comp_toLower]
      have hlen2 : (((w.drop k).takeWhile (fun c => decide (c ≠ '\n'))).map
          Char.toLower).length = ((w.drop k).takeWhile (fun c => decide (c ≠ '\n'))).length :=
        List.length_map _ _
      rw [hlen2]
      rw [show (w.map Char.toLower).drop
          (k + ((w.drop k).takeWhile (fun c => decide (c ≠ '\n'))).length)
        = (w.drop (k + ((w.drop k).takeWhile (fun c => decide (c ≠ '\n'))).length)).map
            Char.toLower from (List.map_drop _ _ _).symm]
      rfl

theorem afterMention_map (r : List Char) :
    afterMention (r.map Char.toLower)
      = (afterMention r).map
          (fun pr => (pr.1.map Char.toLower, pr.2.map Char.toLower)) := by
  simp only [afterMention]
  rw [List.takeWhile_map, isPySpace_comp_toLower]
  have hlen : ((r.takeWhile isPySpace).map Char.toLower).length
      = (r.takeWhile isPySpace).length := List.length_map _ _
  rw [hlen]
  rw [show (r.map Char.toLower).drop (r.takeWhile isPySpace).length
      = (r.drop (r.takeWhile isPySpace).length).map Char.toLower from
    (List.map_drop _ _ _).symm]
  have hemp : ((r.takeWhile isPySpace).map Char.toLower).isEmpty
      = (r.takeWhile isPySpace).isEmpty := by
    cases r.takeWhile isPySpace <;> rfl
  rw [hemp]
  by_cases he : (r.takeWhile isPySpace).isEmpty = true
  · rw [if_pos he, if_pos he]
    rfl
  · rw [if_neg he, if_neg he]
    cases hd : r.drop (r.takeWhile isPySpace).length with
    | nil =>
        simp only [List.map_nil]
        exact backCapture_map _
    | cons c cs =>
        simp only [List.map_cons]
        rw [← List.map_cons Char.toLower c cs]
        rw [List.takeWhile_map, ne_newline_comp_toLower, List.length_map,
          ← List.map_drop]
        rfl

theorem matchMentionAt_map (als : Bool) (l : List Char) :
    matchMentionAt als (l.map Char.toLower)
      = (matchMentionAt als l).map
          (fun pr => (pr.1.map Char.toLower, pr.2.map Char.toLower)) := by
  unfold matchMentionAt
  rw [stripMention_map]
  have halt : ((if als = true then
        ((stripMention l).map (List.map Char.toLower)).bind afterMention
      else none))
      = ((if als = true then (stripMention l).bind afterMention else none).map
          (fun pr => (pr.1.map Char.toLower, pr.2.map Char.toLower))) := by
    by_cases hals : als = true
    · rw [if_pos hals, if_pos hals]
      cases hs : stripMention l with
      | none => rfl
      | some rest =>
          simp only [Option.map_some, Option.some_bind]
          exact afterMention_map rest
    · rw [if_neg hals, if_neg hals]
      rfl
  rw [halt]
  cases h1 : (if als = true then (stripMention l).bind afterMention else none) with
  | some pr => rfl
  | none =>
      simp only [Option.map_none]
      cases l with
      | nil => rfl
      | cons c cs =>
          simp only [List.map_cons]
          rw [isPySpace_toLower c]
          by_cases hw : isPySpace c = true
          · rw [if_pos hw, if_pos hw, stripMention_map]
            cases hs : stripMention cs with
            | none => rfl
            | some rest =>
                simp only [Option.map_some, Option.some_bind]
                exact afterMention_map rest
          · rw [if_neg hw, if_neg hw]
            rfl

theorem scanMentions_map :
    ∀ (fuel : Nat) (als : Bool) (l : List Char),
      scanMentions fuel als (l.map Char.toLower)
        = (scanMentions fuel als l).map (List.map Char.toLower) := by
  intro fuel
  induction fuel with
  | zero => intro als l; rfl
  | succ fuel ih =>
      intro als l
      cases l with
      | nil => rfl
      | cons c cs =>
          have hm := matchMentionAt_map als (c :: cs)
          simp only [List.map_cons] at hm ⊢
          cases h1 : matchMentionAt als (Char.toLower c :: cs.map Char.toLower) with
          | some pr =>
              rw [h1] at hm
              cases h2 : matchMentionAt als (c :: cs) with
              | none => rw [h2] at hm; exact absurd hm (by simp)
              | some pr2 =>
                  rw [h2] at hm
                  simp only [Option.map_some', Option.some.injEq] at hm
                  subst hm
                  unfold scanMentions
                  rw [h1, h2]
                  simp only [List.map_cons]
                  rw [ih false pr2.2]
          | none =>
              rw [h1] at hm
              cases h2 : matchMentionAt als (c :: cs) with
              | some pr2 => rw [h2] at hm; exact absurd hm.symm (by simp)
              | none =>
                  unfold scanMentions
                  rw [h1, h2]
                  rw [show decide (Char.toLower c = '\n') = decide (c = '\n') from
                    decide_eq_decide.mpr (toLower_eq_newline c)]
                  exact ih _ cs

theorem stripChars_map_toLower (l : List Char) :
    stripChars (l.map Char.toLower) = (stripChars l).map Char.toLower := by
  unfold stripChars
  rw [List.dropWhile_map, isPySpace_comp_toLower, ← List.map_reverse,
    List.dropWhile_map, isPySpace_comp_toLower, ← List.map_reverse]

theorem stripStr_lowerStr (s : String) :
    stripStr (lowerStr s) = lowerStr (stripStr s) := by
  unfold stripStr lowerStr
  exact congrArg String.mk (stripChars_map_toLower s.data)

theorem normalise_phrase_lowerStr (s : String) :
    normalise_phrase (lowerStr s) = normalise_phrase s := by
  unfold normalise_phrase lowerStr
  rw [show (String.mk (s.data.map Char.toLower)).data
      = s.data.map Char.toLower from rfl]
  rw [map_toLower_idem]

theorem findMentionDirectives_lowerStr (b : String) :
    findMentionDirectives (lowerStr b) = (findMentionDirectives b).map lowerStr := by
  unfold findMentionDirectives lowerStr
  rw [show (String.mk (b.data.map Char.toLower)).data
      = b.data.map Char.toLower from rfl]
  rw [List.length_map, scanMentions_map, List.map_map, List.map_map]
  rfl

theorem eventOf_lowerStr (idx : List (String × String)) (i : Nat) (cap : String) :
    (eventOf idx i (lowerStr cap)).map
        (fun e => (e.1, e.2.command_name, e.2.comment_index))
      = (eventOf idx i cap).map
        (fun e => (e.1, e.2.command_name, e.2.comment_index)) := by
  unfold eventOf
  rw [stripStr_lowerStr, normalise_phrase_lowerStr]
  cases match_command (normalise_phrase (stripStr cap)) idx <;> rfl

/-! ## Association-list invariants and fold lemmas -/

theorem insertStr_map_proj {β γ : Type} (g : β → γ) (s : List (String × β))
    (k : String) (v : β) :
    (insertStr s k v).map (fun p => (p.1, g p.2))
      = insertStr (s.map (fun p => (p.1, g p.2))) k (g v) := by
  induction s with
  | nil => rfl
  | cons p t ih =>
      obtain ⟨pk, pv⟩ := p
      by_cases h : pk = k
      · simp [insertStr, h]
      · simp [insertStr, h, ih]

theorem foldl_insert_map_proj {β γ : Type} (g : β → γ) :
    ∀ (evs : List (String × β)) (s : List (String × β)),
      (evs.foldl (fun s e => insertStr s e.1 e.2) s).map (fun p => (p.1, g p.2))
        = (evs.map (fun e => (e.1, g e.2))).foldl (fun s e => insertStr s e.1 e.2)
            (s.map (fun p => (p.1, g p.2))) := by
  intro evs
  induction evs with
  | nil => intro s; rfl
  | cons e t ih =>
      intro s
      rw [List.foldl_cons, List.map_cons, List.foldl_cons, ih, insertStr_map_proj]

theorem insertStr_keys_mem {β : Type} (s : List (String × β)) (k : String) (v : β) :
    ∀ k', k' ∈ (insertStr s k v).map Prod.fst → k' ∈ s.map Prod.fst ∨ k' = k := by
  induction s with
  | nil => intro k' h; simp [insertStr] at h; exact Or.inr h
  | cons p t ih =>
      obtain ⟨pk, pv⟩ := p
      intro k' h
      by_cases hk : pk = k
      · simp only [insertStr, if_pos hk, List.map_cons, List.mem_cons] at h
        rcases h with rfl | h
        · exact Or.inl (by simp)
        · exact Or.inl (by simp [h])
      · simp only [insertStr, if_neg hk, List.map_cons, List.mem_cons] at h
        rcases h with rfl | h
        · exact Or.inl (by simp)
        · rcases ih k' h with h1 | h1
          · exact Or.inl (by simp [h1])
          · exact Or.inr h1

theorem insertStr_keys_nodup {β : Type} (s : List (String × β)) (k : String) (v : β)
    (h : (s.map Prod.fst).Nodup) : ((insertStr s k v).map Prod.fst).Nodup := by
  induction s with
  | nil => simp [insertStr]
  | cons p t ih =>
      obtain ⟨pk, pv⟩ := p
      simp only [List.map_cons, List.nodup_cons] at h
      by_cases hk : pk = k
      · simp only [insertStr, if_pos hk, List.map_cons, List.nodup_cons]
        exact h
      · simp only [insertStr, if_neg hk, List.map_cons, List.nodup_cons]
        refine ⟨?_, ih h.2⟩
        intro hmem
        rcases insertStr_keys_mem t k v pk hmem with h1 | h1
        · exact h.1 h1
        · exact hk h1

theorem insertStr_pred {β : Type} (P : String → β → Prop) (s : List (String × β))
    (k : String) (v : β) (hs : ∀ p ∈ s, P p.1 p.2) (hkv : P k v) :
    ∀ p ∈ insertStr s k v, P p.1 p.2 := by
  induction s with
  | nil => intro p hp; simp [insertStr] at hp; subst hp; exact hkv
  | cons q t ih =>
      obtain ⟨qk, qv⟩ := q
      intro p hp
      by_cases hk : qk = k
      · simp only [insertStr, if_pos hk, List.mem_cons] at hp
        rcases hp with rfl | hp
        · subst hk; exact hkv
        · exact hs p (by simp [hp])
      · simp only [insertStr, if_neg hk, List.mem_cons] at hp
        rcases hp with rfl | hp
        · exact hs (qk, qv) (List.mem_cons_self _ _)
        · exact ih (fun r hr => hs r (List.mem_cons_of_mem _ hr)) p hp

theorem foldl_insert_keys_nodup {β : Type} :
    ∀ (evs : List (String × β)) (s : List (String × β)),
      (s.map Prod.fst).Nodup →
      ((evs.foldl (fun s e => insertStr s e.1 e.2) s).map Prod.fst).Nodup := by
  intro evs
  induction evs with
  | nil => intro s hs; exact hs
  | cons e t ih =>
      intro s hs
      rw [List.foldl_cons]
      exact ih _ (insertStr_keys_nodup s e.1 e.2 hs)

theorem foldl_insert_pred {β : Type} (P : String → β → Prop) :
    ∀ (evs : List (String × β)) (s : List (String × β)),
      (∀ p ∈ s, P p.1 p.2) → (∀ e ∈ evs, P e.1 e.2) →
      ∀ p ∈ evs.foldl (fun s e => insertStr s e.1 e.2) s, P p.1 p.2 := by
  intro evs
  induction evs with
  | nil => intro s hs _; exact hs
  | cons e t ih =>
      intro s hs hevs
      rw [List.foldl_cons]
      exact ih _ (insertStr_pred P s e.1 e.2 hs (hevs e (by simp)))
        (fun e' he' => hevs e' (by simp [he']))

theorem lookupStr_eq_some_of_mem {β : Type} :
    ∀ (s : List (String × β)), (s.map Prod.fst).Nodup →
      ∀ {k : String} {v : β}, (k, v) ∈ s → lookupStr s k = some v := by
  intro s
  induction s with
  | nil => intro _ k v h; simp at h
  | cons p t ih =>
      obtain ⟨pk, pv⟩ := p
      intro hnd k v h
      simp only [List.map_cons, List.nodup_cons] at hnd
      rcases List.mem_cons.mp h with heq | hmem
      · cases heq
        simp [lookupStr]
      · have hk : pk ≠ k := by
          intro he
          subst he
          exact hnd.1 (List.mem_map_of_mem Prod.fst hmem)
        simp only [lookupStr, if_neg hk]
        exact ih hnd.2 hmem

theorem lookup_foldl_insert {β : Type} :
    ∀ (evs : List (String × β)) (s : List (String × β)) (k : String),
      lookupStr (evs.foldl (fun s e => insertStr s e.1 e.2) s) k
        = match (evs.filter (fun e => e.1 = k)).getLast? with
          | some e => some e.2
          | none => lookupStr s k := by
  intro evs
  induction evs using List.reverseRecOn with
  | nil => intro s k; rfl
  | append_singleton t e ih =>
      intro s k
      rw [List.foldl_append, List.foldl_cons, List.foldl_nil, List.filter_append]
      obtain ⟨ek, ev⟩ := e
      by_cases hk : ek = k
      · subst hk
        have hfil : List.filter (fun e => decide (e.1 = ek)) [(ek, ev)] = [(ek, ev)] := by
          simp
        rw [hfil, List.getLast?_concat]
        exact lookupStr_insertStr_self _ ek ev
      · have hfil : List.filter (fun e => decide (e.1 = k)) [(ek, ev)] = [] := by
          simp [hk]
        rw [hfil, List.append_nil]
        rw [lookupStr_insertStr_ne _ ek k ev hk]
        exact ih s k

/-! ## `parse_commands` as a fold over its event list -/

theorem commandStep_seen (idx : List (String × String)) (i : Nat) (st : CmdState)
    (cap : String) :
    (commandStep idx i st cap).1
      = match eventOf idx i cap with
        | some e => insertStr st.1 e.1 e.2
        | none => st.1 := by
  cases hm : match_command (normalise_phrase (stripStr cap)) idx with
  | some name => simp [commandStep, eventOf, hm]
  | none => simp [commandStep, eventOf, hm]

theorem foldl_commandStep_seen (idx : List (String × String)) (i : Nat) :
    ∀ (caps : List String) (st : CmdState),
      (caps.foldl (commandStep idx i) st).1
        = (caps.filterMap (eventOf idx i)).foldl
            (fun s e => insertStr s e.1 e.2) st.1 := by
  intro caps
  induction caps with
  | nil => intro st; rfl
  | cons c cs ih =>
      intro st
      rw [List.foldl_cons]
      cases he : eventOf idx i c with
      | some e =>
          rw [List.filterMap_cons_some he, List.foldl_cons, ih]
          congr 1
          rw [commandStep_seen, he]
      | none =>
          rw [List.filterMap_cons_none he, ih]
          congr 1
          rw [commandStep_seen, he]

theorem processBody_fold (idx : List (String × String)) :
    ∀ (ibs : List (Nat × String)) (st : CmdState),
      (ibs.foldl (processBody idx) st).1
        = (ibs.flatMap (fun ib => if ib.2.data.isEmpty then []
              else (findMentionDirectives ib.2).filterMap (eventOf idx ib.1))).foldl
            (fun s e => insertStr s e.1 e.2) st.1 := by
  intro ibs
  induction ibs with
  | nil => intro st; rfl
  | cons ib rest ih =>
      intro st
      rw [List.foldl_cons, List.flatMap_cons, List.foldl_append, ih]
      congr 1
      by_cases hemp : ib.2.data.isEmpty = true
      · rw [if_pos hemp, List.foldl_nil]
        unfold processBody
        rw [if_pos hemp]
      · rw [if_neg hemp]
        unfold processBody
        rw [if_neg hemp]
        exact foldl_commandStep_seen idx ib.1 _ st

theorem parse_commands_matches (reg : List CommandDefinition) (bodies : List String) :
    (parse_commands reg bodies).found_matches
      = ((commandEvents reg bodies).foldl
          (fun s e => insertStr s e.1 e.2) []).map (fun p => p.2) := by
  simp only [parse_commands, commandEvents]
  exact congrArg (List.map (fun p => p.2))
    (processBody_fold (build_phrase_index reg) bodies.enum ([], []))

theorem commandEvents_name_eq (reg : List CommandDefinition) (bodies : List String) :
    ∀ e ∈ commandEvents reg bodies, e.2.command_name = e.1 := by
  intro e he
  unfold commandEvents at he
  rw [List.mem_flatMap] at he
  obtain ⟨ib, _, he⟩ := he
  by_cases hemp : ib.2.data.isEmpty = true
  · rw [if_pos hemp] at he
    exact absurd he (List.not_mem_nil e)
  · rw [if_neg hemp] at he
    rw [List.mem_filterMap] at he
    obtain ⟨cap, _, hev⟩ := he
    unfold eventOf at hev
    cases hm : match_command (normalise_phrase (stripStr cap))
        (build_phrase_index reg) with
    | none => rw [hm] at hev; exact absurd hev (by simp)
    | some name =>
        rw [hm] at hev
        obtain rfl := Option.some.inj hev
        rfl

theorem commandEvents_lowerStr (reg : List CommandDefinition) (bodies : List String) :
    (commandEvents reg (bodies.map lowerStr)).map
        (fun e => (e.1, e.2.command_name, e.2.comment_index))
      = (commandEvents reg bodies).map
        (fun e => (e.1, e.2.command_name, e.2.comment_index)) := by
  unfold commandEvents
  rw [List.enum_map, List.flatMap_map, List.map_flatMap, List.map_flatMap]
  refine congrArg bodies.enum.flatMap ?_
  funext ib
  obtain ⟨i, b⟩ := ib
  simp only [Prod.map_apply, id_eq]
  have hemp : (lowerStr b).data.isEmpty = b.data.isEmpty := by
    rw [show (lowerStr b).data = b.data.map Char.toLower from rfl]
    cases b.data <;> rfl
  rw [hemp]
  by_cases he : b.data.isEmpty = true
  · rw [if_pos he, if_pos he]
  · rw [if_neg he, if_neg he]
    rw [findMentionDirectives_lowerStr, List.filterMap_map,
      List.map_filterMap, List.map_filterMap]
    refine congrArg (List.filterMap · (findMentionDirectives b)) ?_
    funext cap
    exact eventOf_lowerStr (build_phrase_index reg) i cap

/-! ## C8: `parse_commands` deduplication, case-insensitivity, latest wins -/

/-- C8: `parse_commands` returns at most one match per canonical command
name; lowercasing every comment body leaves the matched names and comment
indices unchanged (matching is case-insensitive); and each retained match is
exactly the chronologically last recognised occurrence of its command, so
its `comment_index` is that of the latest occurrence. -/
theorem parse_commands_dedup_latest (reg : List CommandDefinition)
    (bodies : List String) :
    ((parse_commands reg bodies).found_matches.map
        (fun m => m.command_name)).Nodup
    ∧ ((parse_commands reg (bodies.map lowerStr)).found_matches.map
          (fun m => (m.command_name, m.comment_index))
        = (parse_commands reg bodies).found_matches.map
          (fun m => (m.command_name, m.comment_index)))
    ∧ (∀ m, m ∈ (parse_commands reg bodies).found_matches →
        ((commandEvents reg bodies).filter
            (fun e => e.1 = m.command_name)).getLast? = some (m.command_name, m)) := by
  have hpred : ∀ p ∈ (commandEvents reg bodies).foldl
      (fun s e => insertStr s e.1 e.2) ([] : List (String × CommandMatch)),
      p.2.command_name = p.1 :=
    foldl_insert_pred (fun k v => v.command_name = k) (commandEvents reg bodies) []
      (by simp) (commandEvents_name_eq reg bodies)
  have hnodup : (((commandEvents reg bodies).foldl
      (fun s e => insertStr s e.1 e.2) ([] : List (String × CommandMatch))).map
        Prod.fst).Nodup :=
    foldl_insert_keys_nodup (commandEvents reg bodies) [] (by simp)
  refine ⟨?_, ?_, ?_⟩
  · rw [parse_commands_matches, List.map_map]
    have : ((commandEvents reg bodies).foldl
        (fun s e => insertStr s e.1 e.2) ([] : List (String × CommandMatch))).map
          ((fun m => m.command_name) ∘ (fun p => p.2))
        = ((commandEvents reg bodies).foldl
            (fun s e => insertStr s e.1 e.2) ([] : List (String × CommandMatch))).map
          Prod.fst :=
      List.map_congr_left (fun p hp => hpred p hp)
    rw [this]
    exact hnodup
  · have key : ∀ (evs : List (String × CommandMatch)),
        ((evs.foldl (fun s e => insertStr s e.1 e.2)
            ([] : List (String × CommandMatch))).map (fun p => p.2)).map
          (fun m => (m.command_name, m.comment_index))
        = ((evs.map (fun e => (e.1, (e.2.command_name, e.2.comment_index)))).foldl
            (fun s e => insertStr s e.1 e.2)
            ([] : List (String × (String × Nat)))).map (fun p => p.2) := by
      intro evs
      rw [List.map_map]
      rw [show ((fun m : CommandMatch => (m.command_name, m.comment_index))
            ∘ (fun p : String × CommandMatch => p.2))
          = ((fun p : String × (String × Nat) => p.2)
            ∘ (fun p : String × CommandMatch =>
                (p.1, (p.2.command_name, p.2.comment_index)))) from rfl]
      rw [← List.map_map]
      rw [foldl_insert_map_proj (fun m : CommandMatch =>
        (m.command_name, m.comment_index)) evs []]
      rfl
    rw [parse_commands_matches reg (bodies.map lowerStr),
      parse_commands_matches reg bodies, key, key]
    rw [show ((commandEvents reg (bodies.map lowerStr)).map
          (fun e => (e.1, (e.2.command_name, e.2.comment_index))))
        = ((commandEvents reg bodies).map
          (fun e => (e.1, (e.2.command_name, e.2.comment_index)))) from
      commandEvents_lowerStr reg bodies]
  · intro m hm
    rw [parse_commands_matches] at hm
    obtain ⟨p, hpmem, rfl⟩ := List.mem_map.mp hm
    have hname : p.2.command_name = p.1 := hpred p hpmem
    have hp' : (p.1, p.2) ∈ (commandEvents reg bodies).foldl
        (fun s e => insertStr s e.1 e.2) ([] : List (String × CommandMatch)) :=
      hpmem
    have hlook := lookupStr_eq_some_of_mem _ hnodup hp'
    rw [lookup_foldl_insert (commandEvents reg bodies) [] p.1] at hlook
    cases hl : ((commandEvents reg bodies).filter (fun e => e.1 = p.1)).getLast? with
    | none =>
        rw [hl] at hlook
        exact absurd hlook (by simp [lookupStr])
    | some e =>
        rw [hl] at hlook
        have he2 : e.2 = p.2 := Option.some.inj hlook
        have hemem : e ∈ (commandEvents reg bodies).filter (fun e => e.1 = p.1) := by
          obtain ⟨hne, hgl⟩ :=
            List.mem_getLast?_eq_getLast (Option.mem_def.mpr hl)
          rw [hgl]
          exact List.getLast_mem hne
        have he1 : e.1 = p.1 := by
          have h2 := (List.mem_filter.mp hemem).2
          simpa using h2
        rw [hname, hl]
        exact congrArg some (Prod.ext he1 he2)

/-- Witness for C8: with the duplicate-command comment history of the source
test, the single retained match is the one from the latest comment
(index 2). -/
theorem parse_commands_dedup_latest_witness :
    ((commandEvents COMMAND_REGISTRY
        ["@github2gerrit create missing change", "Some other comment",
         "@github2gerrit create missing change"]).filter
      (fun e => e.1 = (⟨"create missing change", "create missing change", 2⟩ :
          CommandMatch).command_name)).getLast?
    = some ("create missing change",
        ⟨"create missing change", "create missing change", 2⟩) :=
  (parse_commands_dedup_latest COMMAND_REGISTRY
      ["@github2gerrit create missing change", "Some other comment",
       "@github2gerrit create missing change"]).2.2
    ⟨"create missing change", "create missing change", 2⟩ (by decide)

end G2G
